import Mathlib

/-!
Verification development for the Pupil Core message-bus and
process-supervision layer (`pupil_src/main.py`,
`pupil_src/launchables/eye.py`,
`pupil_src/shared_modules/video_capture/neon_backend/network.py`,
`pupil_src/shared_modules/video_capture/neon_backend/__main__.py`).

Python dictionaries used for notifications are embedded as
insertion-ordered association lists with string keys (a Python `dict`
never holds a key twice; the embedding carries that as an explicit
no-duplicate-keys invariant).  Wall-clock times (Python `time()`) and
delays are modelled as natural numbers in milliseconds; the delay
proxy's `poller.poll(timeout=250)` bound appears as the literal 250.
-/

/-- Values stored under notification keys.  The claims only need
strings, numbers (times, delays, ids; modelled as `Nat`) and booleans. -/
inductive PyVal : Type
  | str (s : String)
  | num (n : Nat)
  | bool (b : Bool)
deriving DecidableEq, Repr

/-- A Python `dict` with string keys: an insertion-ordered association
list.  Assignment overwrites in place; fresh keys append at the end. -/
abbrev PyDict (α : Type) : Type := List (String × α)

/-- `d[k]` as a total lookup: first binding of `k`, if any. -/
def aget {α : Type} : PyDict α → String → Option α
  | [], _ => none
  | (k, v) :: rest, key => if k = key then some v else aget rest key

/-- `d[k] = v`: replace the binding of `k` in place if present,
otherwise append it (Python `dict` assignment semantics). -/
def aset {α : Type} : PyDict α → String → α → PyDict α
  | [], key, v => [(key, v)]
  | (k, w) :: rest, key, v =>
    if k = key then (k, v) :: rest else (k, w) :: aset rest key v

/-- `del d[k]`: remove the binding of `k` (first occurrence; under the
no-duplicate-keys invariant this is the only one). -/
def adel {α : Type} : PyDict α → String → PyDict α
  | [], _ => []
  | (k, w) :: rest, key => if k = key then rest else (k, w) :: adel rest key

/-- The keys of an association list. -/
def keysOf {α : Type} (d : PyDict α) : List String := d.map Prod.fst

/-- No key bound twice — every reachable Python `dict` satisfies this. -/
def keysND {α : Type} (d : PyDict α) : Prop := (keysOf d).Nodup

instance {α : Type} (d : PyDict α) : Decidable (keysND d) := by
  unfold keysND; infer_instance

theorem keysOf_cons {α : Type} (e : String × α) (d : PyDict α) :
    keysOf (e :: d) = e.1 :: keysOf d := rfl

theorem keysND_cons {α : Type} (e : String × α) (d : PyDict α) :
    keysND (e :: d) ↔ e.1 ∉ keysOf d ∧ keysND d := by
  simp [keysND, keysOf_cons, List.nodup_cons]

theorem aget_aset_self {α : Type} (d : PyDict α) (k : String) (v : α) :
    aget (aset d k v) k = some v := by
  induction d with
  | nil => simp [aset, aget]
  | cons e rest ih =>
    obtain ⟨k', v'⟩ := e
    by_cases h : k' = k <;> simp [aset, aget, h, ih]

theorem aget_aset_ne {α : Type} (d : PyDict α) (k k' : String) (v : α)
    (h : k' ≠ k) : aget (aset d k v) k' = aget d k' := by
  induction d with
  | nil => simp [aset, aget, Ne.symm h]
  | cons e rest ih =>
    obtain ⟨k₀, v₀⟩ := e
    by_cases h0 : k₀ = k
    · subst h0
      simp [aset, aget, Ne.symm h]
    · by_cases h1 : k₀ = k' <;> simp [aset, aget, h0, h1, h, Ne.symm h, ih]

theorem aget_adel_ne {α : Type} (d : PyDict α) (k k' : String)
    (h : k' ≠ k) : aget (adel d k) k' = aget d k' := by
  induction d with
  | nil => simp [adel]
  | cons e rest ih =>
    obtain ⟨k₀, v₀⟩ := e
    by_cases h0 : k₀ = k
    · subst h0
      simp [adel, aget, Ne.symm h]
    · by_cases h1 : k₀ = k' <;> simp [adel, aget, h0, h1, h, Ne.symm h, ih]

theorem aget_eq_none_of_not_mem_keys {α : Type} (d : PyDict α) (k : String)
    (h : k ∉ keysOf d) : aget d k = none := by
  induction d with
  | nil => rfl
  | cons e rest ih =>
    obtain ⟨k₀, v₀⟩ := e
    rw [keysOf_cons] at h
    have hk : k₀ ≠ k := fun hh => h (by simp [hh])
    have hrest : k ∉ keysOf rest := fun hh => h (List.mem_cons_of_mem _ hh)
    simp [aget, hk, ih hrest]

theorem aget_adel_self {α : Type} (d : PyDict α) (k : String)
    (hnd : keysND d) : aget (adel d k) k = none := by
  induction d with
  | nil => rfl
  | cons e rest ih =>
    obtain ⟨k₀, v₀⟩ := e
    rw [keysND_cons] at hnd
    by_cases h0 : k₀ = k
    · subst h0
      simpa [adel] using aget_eq_none_of_not_mem_keys rest k₀ hnd.1
    · simp [adel, aget, h0, ih hnd.2]

theorem mem_aset {α : Type} (d : PyDict α) (k : String) (v : α)
    (e : String × α) (h : e ∈ aset d k v) : e = (k, v) ∨ e ∈ d := by
  induction d with
  | nil => simpa [aset] using h
  | cons e₀ rest ih =>
    obtain ⟨k₀, v₀⟩ := e₀
    by_cases h0 : k₀ = k
    · subst h0
      rcases (by simpa [aset] using h : e = (k₀, v) ∨ e ∈ rest) with h1 | h1
      · exact Or.inl h1
      · exact Or.inr (List.mem_cons_of_mem _ h1)
    · rcases (by simpa [aset, h0] using h : e = (k₀, v₀) ∨ e ∈ aset rest k v) with h1 | h1
      · exact Or.inr (by simp [h1])
      · rcases ih h1 with h2 | h2
        · exact Or.inl h2
        · exact Or.inr (List.mem_cons_of_mem _ h2)

theorem mem_adel {α : Type} (d : PyDict α) (k : String)
    (e : String × α) (h : e ∈ adel d k) : e ∈ d := by
  induction d with
  | nil => simp [adel] at h
  | cons e₀ rest ih =>
    obtain ⟨k₀, v₀⟩ := e₀
    by_cases h0 : k₀ = k
    · subst h0
      exact List.mem_cons_of_mem _ (by simpa [adel] using h)
    · rcases (by simpa [adel, h0] using h : e = (k₀, v₀) ∨ e ∈ adel rest k) with h1 | h1
      · simp [h1]
      · exact List.mem_cons_of_mem _ (ih h1)

theorem mem_keysOf_aset {α : Type} (d : PyDict α) (k : String) (v : α) :
    ∀ k', k' ∈ keysOf (aset d k v) → k' = k ∨ k' ∈ keysOf d := by
  intro k' h
  rcases List.mem_map.1 h with ⟨e, he, hk⟩
  rcases mem_aset d k v e he with h1 | h1
  · left; rw [← hk, h1]
  · right; exact hk ▸ List.mem_map_of_mem Prod.fst h1

theorem mem_keysOf_adel {α : Type} (d : PyDict α) (k : String) :
    ∀ k', k' ∈ keysOf (adel d k) → k' ∈ keysOf d := by
  intro k' h
  rcases List.mem_map.1 h with ⟨e, he, hk⟩
  exact hk ▸ List.mem_map_of_mem Prod.fst (mem_adel d k e he)

theorem keysND_aset {α : Type} (d : PyDict α) (k : String) (v : α)
    (hnd : keysND d) : keysND (aset d k v) := by
  induction d with
  | nil => simp [aset, keysND, keysOf]
  | cons e rest ih =>
    obtain ⟨k₀, v₀⟩ := e
    rw [keysND_cons] at hnd
    by_cases h0 : k₀ = k
    · subst h0
      rw [show aset ((k₀, v₀) :: rest) k₀ v = (k₀, v) :: rest from by simp [aset]]
      exact (keysND_cons _ _).2 hnd
    · rw [show aset ((k₀, v₀) :: rest) k v = (k₀, v₀) :: aset rest k v from by simp [aset, h0]]
      refine (keysND_cons _ _).2 ⟨?_, ih hnd.2⟩
      intro hmem
      rcases mem_keysOf_aset rest k v k₀ hmem with h1 | h1
      · exact h0 h1
      · exact hnd.1 h1

theorem keysND_adel {α : Type} (d : PyDict α) (k : String)
    (hnd : keysND d) : keysND (adel d k) := by
  induction d with
  | nil => simp [adel, keysND, keysOf]
  | cons e rest ih =>
    obtain ⟨k₀, v₀⟩ := e
    rw [keysND_cons] at hnd
    by_cases h0 : k₀ = k
    · subst h0
      simpa [adel] using hnd.2
    · rw [show adel ((k₀, v₀) :: rest) k = (k₀, v₀) :: adel rest k from by simp [adel, h0]]
      exact (keysND_cons _ _).2 ⟨fun hmem => hnd.1 (mem_keysOf_adel rest k k₀ hmem), ih hnd.2⟩

theorem aget_mem {α : Type} (d : PyDict α) (k : String) (v : α)
    (h : aget d k = some v) : (k, v) ∈ d := by
  induction d with
  | nil => simp [aget] at h
  | cons e rest ih =>
    obtain ⟨k₀, v₀⟩ := e
    by_cases h0 : k₀ = k
    · subst h0
      simp [aget] at h
      simp [h]
    · exact List.mem_cons_of_mem _ (ih (by simpa [aget, h0] using h))

theorem mem_aget {α : Type} (d : PyDict α) (k : String) (v : α)
    (hnd : keysND d) (h : (k, v) ∈ d) : aget d k = some v := by
  induction d with
  | nil => simp at h
  | cons e rest ih =>
    obtain ⟨k₀, v₀⟩ := e
    rw [keysND_cons] at hnd
    rcases List.mem_cons.1 h with h1 | h1
    · rw [show k₀ = k from (Prod.mk.injEq .. ▸ h1 : k = k₀ ∧ v = v₀).1.symm]
      simp [aget, (Prod.mk.injEq .. ▸ h1 : k = k₀ ∧ v = v₀).2.symm]
    · have hk0 : k₀ ≠ k := by
        intro hh
        subst hh
        exact hnd.1 (List.mem_map.2 ⟨(k₀, v), h1, rfl⟩)
      simp [aget, hk0, ih hnd.2 h1]

/-! ## NetworkInterface subscriber counting
(`shared_modules/video_capture/neon_backend/network.py`) -/

/-- `NetworkInterface.__init__` (network.py:30): `self.num_subscribers = 0`. -/
def NetworkInterface.initNumSubscribers : Int := 0

/-- One loop body of `NetworkInterface.process_subscriptions`
(network.py:177-187) applied to one multipart message received on the
XPUB socket, as bytes.  A message beginning with `0x01` followed by the
encoded topic-prefix bytes `tpfx` is a matching subscribe, `0x00` a
matching unsubscribe (`self.num_subscribers = max(self.num_subscribers - 1, 0)`). -/
def subMsgStep (tpfx : List Nat) (count : Int) (msg : List Nat) : Int :=
  if List.isPrefixOf (1 :: tpfx) msg then count + 1
  else if List.isPrefixOf (0 :: tpfx) msg then max (count - 1) 0
  else count

/-- The whole `while`-loop of `process_subscriptions`: fold the step over
the sequence of messages drained from the socket. -/
def processSubscriptions (tpfx : List Nat) (msgs : List (List Nat)) (count : Int) : Int :=
  msgs.foldl (subMsgStep tpfx) count

theorem subMsgStep_nonneg (tpfx : List Nat) (count : Int) (msg : List Nat)
    (h : 0 ≤ count) : 0 ≤ subMsgStep tpfx count msg := by
  unfold subMsgStep
  split
  · omega
  · split
    · exact le_max_right _ _
    · exact h

theorem processSubscriptions_nonneg (tpfx : List Nat) (msgs : List (List Nat))
    (count : Int) (h : 0 ≤ count) : 0 ≤ processSubscriptions tpfx msgs count := by
  induction msgs generalizing count with
  | nil => exact h
  | cons m rest ih =>
    exact ih (subMsgStep tpfx count m) (subMsgStep_nonneg tpfx count m h)

/-- C10: `num_subscribers` starts at zero (`__init__`), a matching
subscribe message increments it by one, a matching unsubscribe message
decrements it by one but never below zero, and consequently every call
to `process_subscriptions` keeps the counter non-negative. -/
theorem claim_C10_subscriber_count :
    NetworkInterface.initNumSubscribers = 0 ∧
    (∀ tpfx msgs count, 0 ≤ count →
      0 ≤ processSubscriptions tpfx msgs count) ∧
    (∀ tpfx count msg, List.isPrefixOf (1 :: tpfx) msg = true →
      subMsgStep tpfx count msg = count + 1) ∧
    (∀ tpfx count msg, List.isPrefixOf (1 :: tpfx) msg = false →
      List.isPrefixOf (0 :: tpfx) msg = true →
      subMsgStep tpfx count msg = max (count - 1) 0) := by
  refine ⟨rfl, processSubscriptions_nonneg, ?_, ?_⟩
  · intro tpfx count msg h
    simp [subMsgStep, h]
  · intro tpfx count msg h1 h0
    simp [subMsgStep, h1, h0]

/-- Witness for C10 at concrete inputs: a subscribe for prefix `[7]`,
then two unsubscribes (the second hitting the floor at zero). -/
theorem claim_C10_subscriber_count_witness :
    0 ≤ processSubscriptions [7] [[1, 7, 3], [0, 7], [0, 7]] 0 ∧
    subMsgStep [7] 0 [1, 7, 3] = 0 + 1 ∧
    subMsgStep [7] 0 [0, 7] = max (0 - 1) 0 := by
  refine ⟨claim_C10_subscriber_count.2.1 [7] [[1, 7, 3], [0, 7], [0, 7]] 0 (by decide), ?_, ?_⟩
  · exact claim_C10_subscriber_count.2.2.1 [7] 0 [1, 7, 3] (by decide)
  · exact claim_C10_subscriber_count.2.2.2 [7] 0 [0, 7] (by decide) (by decide)

/-! ## Eye worker session-settings version gate (eye.py:485-492) -/

/-- eye.py:485-492: the `Persistent_Dict` store is loaded and then
`if parse_version(session_settings.get("version", "0.0")) != g_pool.version:
session_settings.clear()`.  The parsed-version type `V` and the parser
(the external `packaging.version.parse`) are abstract parameters; a
stored `version` value that is not a string would crash the parser
(`none`).  `session_settings.clear()` empties the store. -/
def loadSessionSettings {V : Type} [DecidableEq V]
    (parseVersion : String → V) (appVersion : V) (stored : PyDict PyVal) :
    Option (PyDict PyVal) :=
  match aget stored "version" with
  | some (PyVal.str s) => some (if parseVersion s = appVersion then stored else [])
  | some _ => none
  | none => some (if parseVersion "0.0" = appVersion then stored else [])

/-- C7: if the stored version string parses differently from the running
application's version, the whole store is cleared (no partial
migration); if it parses equal, the stored values are kept and used. -/
theorem claim_C7_version_gate {V : Type} [DecidableEq V]
    (parseVersion : String → V) (appVersion : V) (stored : PyDict PyVal)
    (s : String) (hs : aget stored "version" = some (PyVal.str s)) :
    (parseVersion s ≠ appVersion →
      loadSessionSettings parseVersion appVersion stored = some []) ∧
    (parseVersion s = appVersion →
      loadSessionSettings parseVersion appVersion stored = some stored) := by
  constructor
  · intro hne
    simp [loadSessionSettings, hs, hne]
  · intro heq
    simp [loadSessionSettings, hs, heq]

/-- Witness for C7: a store written by version `1.0` is cleared entirely
by a `2.0` app and kept entirely by a `1.0` app (parser instantiated
with the identity on version strings). -/
theorem claim_C7_version_gate_witness :
    loadSessionSettings (fun s => s) "2.0"
      [("version", PyVal.str "1.0"), ("flip", PyVal.bool true)] = some [] ∧
    loadSessionSettings (fun s => s) "1.0"
      [("version", PyVal.str "1.0"), ("flip", PyVal.bool true)] =
      some [("version", PyVal.str "1.0"), ("flip", PyVal.bool true)] := by
  constructor
  · exact (claim_C7_version_gate (fun s => s) "2.0"
      [("version", PyVal.str "1.0"), ("flip", PyVal.bool true)] "1.0" rfl).1 (by decide)
  · exact (claim_C7_version_gate (fun s => s) "1.0"
      [("version", PyVal.str "1.0"), ("flip", PyVal.bool true)] "1.0" rfl).2 rfl

/-! ## Eye worker tick pipeline (eye.py:805-807) -/

/-- The per-tick event accumulator: `event = {}` in the eye loop. -/
abbrev Event : Type := PyDict PyVal

/-- A plugin as the eye tick loop sees it: `plugin.recent_events(event)`
receives the shared accumulator and may read and extend it; the mutation
is modelled as the returned dictionary. -/
structure EPlugin : Type where
  name : String
  recentEvents : Event → Event

/-- eye.py:806-807: `for plugin in g_pool.plugins: plugin.recent_events(event)`
over the container order, on the single shared accumulator.  The first
component records, per call in order, which plugin was called and the
accumulator value passed to it; the second is the final accumulator. -/
def tickCalls : List EPlugin → Event → List (String × Event) × Event
  | [], ev => ([], ev)
  | p :: rest, ev =>
    let r := tickCalls rest (p.recentEvents ev)
    ((p.name, ev) :: r.1, r.2)

/-- One tick of the eye loop: the accumulator starts as the empty dict
(`event = {}`, eye.py:805). -/
def eyeTick (plugins : List EPlugin) : List (String × Event) × Event :=
  tickCalls plugins []

theorem tickCalls_map_fst (ps : List EPlugin) (ev : Event) :
    (tickCalls ps ev).1.map Prod.fst = ps.map EPlugin.name := by
  induction ps generalizing ev with
  | nil => rfl
  | cons p rest ih => simp [tickCalls, ih]

theorem tickCalls_snd (ps : List EPlugin) (ev : Event) :
    (tickCalls ps ev).2 = ps.foldl (fun e q => q.recentEvents e) ev := by
  induction ps generalizing ev with
  | nil => rfl
  | cons p rest ih => simp [tickCalls, ih, List.foldl_cons]

theorem tickCalls_get (ps : List EPlugin) (ev : Event) (i : Nat) (p : EPlugin)
    (h : ps.get? i = some p) :
    (tickCalls ps ev).1.get? i =
      some (p.name, (ps.take i).foldl (fun e q => q.recentEvents e) ev) := by
  induction ps generalizing ev i with
  | nil => simp at h
  | cons q rest ih =>
    cases i with
    | zero =>
      simp at h
      simp [tickCalls, h]
    | succ j =>
      have h' : rest.get? j = some p := h
      simpa [tickCalls, List.take_succ_cons] using ih (q.recentEvents ev) j h'

/-- C8: in a tick of the eye worker, each plugin's `recent_events` is
called exactly once, in container order (the sequence of callees equals
the container's plugin sequence), and the accumulator handed to the
`i`-th plugin is exactly the empty dict extended by all earlier plugins'
effects — so events produced earlier in the same tick are visible to
every later call; the tick's final accumulator carries all effects. -/
theorem claim_C8_tick_pipeline (plugins : List EPlugin) :
    ((eyeTick plugins).1.map Prod.fst = plugins.map EPlugin.name) ∧
    (∀ i p, plugins.get? i = some p →
      (eyeTick plugins).1.get? i =
        some (p.name, (plugins.take i).foldl (fun e q => q.recentEvents e) [])) ∧
    ((eyeTick plugins).2 = plugins.foldl (fun e q => q.recentEvents e) []) := by
  refine ⟨tickCalls_map_fst plugins [], ?_, tickCalls_snd plugins []⟩
  intro i p h
  exact tickCalls_get plugins [] i p h

/-- Witness for C8: capture plugin `A` stores a frame event; detector
plugin `B`, added after `A`, is handed an accumulator already containing
`A`'s frame within the same tick. -/
theorem claim_C8_tick_pipeline_witness :
    (eyeTick [⟨"A", fun ev => aset ev "frame" (PyVal.num 7)⟩, ⟨"B", fun ev => ev⟩]).1.get? 1 =
      some ("B", [("frame", PyVal.num 7)]) := by
  exact (claim_C8_tick_pipeline
    [⟨"A", fun ev => aset ev "frame" (PyVal.num 7)⟩, ⟨"B", fun ev => ev⟩]).2.1 1
    ⟨"B", fun ev => ev⟩ rfl

/-! ## Eye worker lifecycle (eye.py) -/

inductive LogLevel : Type
  | debug | info | warning | error
deriving DecidableEq, Repr

/-- A notification payload: a Python dict with a `subject` key etc. -/
abbrev Notification : Type := PyDict PyVal

/-- The eye worker's observable state: the shared `is_alive_flag`
(`multiprocessing.Value(c_bool)`), the notifications sent through
`ipc_socket.notify`, and the log records it emitted (oldest first). -/
structure EyeWorld : Type where
  isAlive : Bool
  notes : List Notification
  logs : List (LogLevel × String)
deriving DecidableEq, Repr

/-- The notification sent by `Is_Alive_Manager.__enter__` (eye.py:47-49). -/
def startedNote (eyeId : Nat) : Notification :=
  [("subject", PyVal.str "eye_process.started"), ("eye_id", PyVal.num eyeId)]

/-- The notification sent by `Is_Alive_Manager.__exit__` (eye.py:79-81). -/
def stoppedNote (eyeId : Nat) : Notification :=
  [("subject", PyVal.str "eye_process.stopped"), ("eye_id", PyVal.num eyeId)]

/-- `Is_Alive_Manager.__enter__` (eye.py:40-51): set the shared flag true
and publish `eye_process.started`. -/
def isAliveEnter (eyeId : Nat) (st : EyeWorld) : EyeWorld :=
  { st with isAlive := true, notes := st.notes ++ [startedNote eyeId] }

/-- The `logger.error` message format of `__exit__` (eye.py:67-70). -/
def crashLogMsg (eyeId : Nat) (trace : String) : String :=
  "Process Eye" ++ toString eyeId ++ " crashed with trace:\n" ++ trace

/-- `Is_Alive_Manager.__exit__` (eye.py:53-83): if an exception reached
it, log the formatted trace at error level; then unconditionally set the
flag false, publish `eye_process.stopped`, and return `True` (the second
component), which tells the `with` statement not to propagate the
exception.  (The `time.sleep(1.0)` has no modelled effect.) -/
def isAliveExit (eyeId : Nat) (exc : Option String) (st : EyeWorld) : EyeWorld × Bool :=
  let st1 := match exc with
    | some trace => { st with logs := st.logs ++ [(LogLevel.error, crashLogMsg eyeId trace)] }
    | none => st
  ({ st1 with isAlive := false, notes := st1.notes ++ [stoppedNote eyeId] }, true)

/-- `with Is_Alive_Manager(...):` around the eye run block (eye.py:160):
`__enter__`, then the block body — arbitrary here, returning its state
effect and, when it raised, the formatted trace of the exception — then
`__exit__`.  The returned `Option String` is an exception propagating
out of the `with` statement: `none` when `__exit__` swallowed it. -/
def runWithBlock (eyeId : Nat) (body : EyeWorld → EyeWorld × Option String)
    (st : EyeWorld) : EyeWorld × Option String :=
  let stIn := isAliveEnter eyeId st
  let r := body stIn
  let ex := isAliveExit eyeId r.2 r.1
  (ex.1, if ex.2 then none else r.2)

inductive EyeStart : Type
  | entered | aborted
deriving DecidableEq, Repr

/-- The warning logged at eye.py:157. -/
def redundantWarning : LogLevel × String :=
  (LogLevel.warning, "Aborting redundant eye process startup")

/-- The duplicate-startup guard at the top of `eye` (eye.py:154-158):
if the shared flag is already true, log the warning and `return`. -/
def eyeCheckRedundant (st : EyeWorld) : EyeWorld × EyeStart :=
  if st.isAlive then
    ({ st with logs := st.logs ++ [redundantWarning] }, EyeStart.aborted)
  else (st, EyeStart.entered)

/-- The whole `eye` entry (eye.py:86-160): the socket and logging setup
has no effect on the modelled state; then the duplicate-startup check,
then the guarded run block. -/
def eyeRun (eyeId : Nat) (body : EyeWorld → EyeWorld × Option String)
    (st : EyeWorld) : EyeWorld × Option String :=
  match eyeCheckRedundant st with
  | (st', EyeStart.aborted) => (st', none)
  | (st', EyeStart.entered) => runWithBlock eyeId body st'

/-- The startup phase of a spawned eye worker in isolation: the
redundancy check and, when it passes, the `__enter__` of the lifecycle
guard (after which the worker is live inside its run block). -/
def eyeStartPhase (eyeId : Nat) (st : EyeWorld) : EyeWorld × EyeStart :=
  match eyeCheckRedundant st with
  | (st', EyeStart.aborted) => (st', EyeStart.aborted)
  | (st', EyeStart.entered) => (isAliveEnter eyeId st', EyeStart.entered)

/-- C2: for every body of the eye run block — normal return or an
unhandled exception — `__exit__` forces the is-alive flag false,
publishes `eye_process.stopped` as the last notification, swallows the
exception (nothing propagates out of the `with` statement), and on the
fault path the full formatted trace was logged at error level. -/
theorem claim_C2_guaranteed_cleanup (eyeId : Nat)
    (body : EyeWorld → EyeWorld × Option String) (st : EyeWorld) :
    ((runWithBlock eyeId body st).1.isAlive = false) ∧
    ((runWithBlock eyeId body st).1.notes =
      (body (isAliveEnter eyeId st)).1.notes ++ [stoppedNote eyeId]) ∧
    ((runWithBlock eyeId body st).2 = none) ∧
    (∀ trace, (body (isAliveEnter eyeId st)).2 = some trace →
      (LogLevel.error, crashLogMsg eyeId trace) ∈ (runWithBlock eyeId body st).1.logs) := by
  refine ⟨?_, ?_, ?_, ?_⟩
  · simp [runWithBlock, isAliveExit]
  · cases hb : (body (isAliveEnter eyeId st)).2 <;>
      simp [runWithBlock, isAliveExit, hb]
  · simp [runWithBlock, isAliveExit]
  · intro trace htrace
    simp [runWithBlock, isAliveExit, htrace]

/-- Witness for C2 on a crashing body: the guard cleans up and swallows. -/
theorem claim_C2_guaranteed_cleanup_witness :
    ((runWithBlock 0 (fun s => (s, some "boom")) ⟨false, [], []⟩).1.isAlive = false) ∧
    ((runWithBlock 0 (fun s => (s, some "boom")) ⟨false, [], []⟩).1.notes =
      [startedNote 0, stoppedNote 0]) ∧
    ((runWithBlock 0 (fun s => (s, some "boom")) ⟨false, [], []⟩).2 = none) ∧
    ((LogLevel.error, crashLogMsg 0 "boom") ∈
      (runWithBlock 0 (fun s => (s, some "boom")) ⟨false, [], []⟩).1.logs) := by
  have h := claim_C2_guaranteed_cleanup 0 (fun s => (s, some "boom")) ⟨false, [], []⟩
  exact ⟨h.1, by simpa [isAliveEnter, startedNote] using h.2.1, h.2.2.1,
    h.2.2.2 "boom" rfl⟩

/-- C9: calling `eye` while the is-alive flag is already true logs the
warning and returns before the lifecycle guard: the flag and the sent
notifications are untouched, no exception escapes, and the only state
change is the appended warning log record. -/
theorem claim_C9_redundant_entry (eyeId : Nat)
    (body : EyeWorld → EyeWorld × Option String) (st : EyeWorld)
    (h : st.isAlive = true) :
    eyeRun eyeId body st =
      ({ st with logs := st.logs ++ [redundantWarning] }, none) ∧
    (eyeRun eyeId body st).1.isAlive = st.isAlive ∧
    (eyeRun eyeId body st).1.notes = st.notes := by
  refine ⟨?_, ?_, ?_⟩ <;> simp [eyeRun, eyeCheckRedundant, h]

/-- Witness for C9 at a concrete already-alive state. -/
theorem claim_C9_redundant_entry_witness :
    eyeRun 0 (fun s => (s, none)) ⟨true, [startedNote 0], []⟩ =
      ({ isAlive := true, notes := [startedNote 0],
         logs := [redundantWarning] }, none) := by
  exact (claim_C9_redundant_entry 0 (fun s => (s, none))
    ⟨true, [startedNote 0], []⟩ rfl).1

/-! ## Launcher / process supervisor (main.py) -/

/-- One spawned OS process record (`multiprocessing.Process(...).start()`
in `process_notification`, main.py:387-509). -/
inductive SpawnRec : Type
  | eyeProc (eyeId : Nat)
  | playerProc
  | worldProc
  | clearSettingsProc
  | serviceProc
  | playerDropProc
  | circleDetectorProc
deriving DecidableEq, Repr

/-- Launcher-side state: the two `eye_procs_alive` shared flags, the OS
processes spawned so far, and the notifications pushed via `cmd_push`. -/
structure LauncherSt : Type where
  alive0 : Bool
  alive1 : Bool
  spawned : List SpawnRec
  pushed : List Notification
deriving DecidableEq, Repr

/-- Does `sub` occur as a contiguous run inside `l`? -/
def containsSeq {α : Type} [BEq α] (sub : List α) : List α → Bool
  | [] => List.isPrefixOf sub []
  | a :: rest => List.isPrefixOf sub (a :: rest) || containsSeq sub rest

/-- Python `sub in topic` substring containment. -/
def strContains (t sub : String) : Bool := containsSeq sub.data t.data

/-- `process_notification` (main.py:387-509).  Crucially, the
`notify.eye_process.should_start` branch (main.py:401-422) spawns a new
eye `Process` unconditionally — it never consults `eye_procs_alive`.
`none` models a Python exception: a missing required notification key
(`KeyError`) or an eye id outside the two-element `eye_procs_alive`
tuple (`IndexError`).  The `meta.doc` push omits the docstring text. -/
def processNotification (app topic : String) (ntf : Notification)
    (st : LauncherSt) : Option LauncherSt :=
  if strContains topic "notify.eye_process.should_start" then
    match aget ntf "eye_id" with
    | some (PyVal.num eyeId) =>
      if eyeId < 2 then
        some { st with spawned := st.spawned ++ [SpawnRec.eyeProc eyeId] }
      else none
    | _ => none
  else if strContains topic "notify.player_process.should_start" then
    match aget ntf "rec_dir" with
    | some _ => some { st with spawned := st.spawned ++ [SpawnRec.playerProc] }
    | none => none
  else if strContains topic "notify.world_process.should_start" then
    some { st with spawned := st.spawned ++ [SpawnRec.worldProc] }
  else if strContains topic "notify.clear_settings_process.should_start" then
    some { st with spawned := st.spawned ++ [SpawnRec.clearSettingsProc] }
  else if strContains topic "notify.service_process.should_start" then
    some { st with spawned := st.spawned ++ [SpawnRec.serviceProc] }
  else if strContains topic "notify.player_drop_process.should_start" then
    match aget ntf "rec_dir" with
    | some _ => some { st with spawned := st.spawned ++ [SpawnRec.playerDropProc] }
    | none => none
  else if strContains topic "notify.circle_detector_process.should_start" then
    match aget ntf "pair_url", aget ntf "source_path" with
    | some _, some _ =>
      some { st with spawned := st.spawned ++ [SpawnRec.circleDetectorProc] }
    | _, _ => none
  else if strContains topic "notify.meta.should_doc" then
    some { st with pushed := st.pushed ++
      [[("subject", PyVal.str "meta.doc"), ("actor", PyVal.str "launcher")]] }
  else if strContains topic "notify.launcher_process.should_stop" then
    if app = "capture" then
      some { st with pushed := st.pushed ++
        [[("subject", PyVal.str "world_process.should_stop")]] }
    else if app = "service" then
      some { st with pushed := st.pushed ++
        [[("subject", PyVal.str "service_process.should_stop")]] }
    else if app = "player" then
      some { st with pushed := st.pushed ++
        [[("subject", PyVal.str "player_process.should_stop")]] }
    else some st
  else some st

/-- The topic of a duplicate eye-start request for eye 0. -/
def dupStartTopic : String := "notify.eye_process.should_start"

/-- Its payload. -/
def dupStartNtf : Notification :=
  [("subject", PyVal.str "eye_process.should_start"), ("eye_id", PyVal.num 0)]

/-- A launcher state in which eye 0's is-alive flag is already true and
one eye-0 process is running. -/
def dupLauncherSt : LauncherSt :=
  { alive0 := true, alive1 := false, spawned := [SpawnRec.eyeProc 0], pushed := [] }

/-- C1 counterexample: with eye 0's is-alive flag already true, the
launcher's `process_notification` does NOT ignore the duplicate
`eye_process.should_start` — it spawns another OS process (it performs
no is-alive check at main.py:401-422), so "request ignored with no
process spawned" is false of the code. -/
theorem claim_C1_counterexample :
    dupLauncherSt.alive0 = true ∧
    processNotification "capture" dupStartTopic dupStartNtf dupLauncherSt =
      some { dupLauncherSt with
             spawned := dupLauncherSt.spawned ++ [SpawnRec.eyeProc 0] } ∧
    dupLauncherSt.spawned ++ [SpawnRec.eyeProc 0] ≠ dupLauncherSt.spawned := by
  refine ⟨rfl, ?_, by decide⟩
  have ht : strContains dupStartTopic "notify.eye_process.should_start" = true := by
    decide
  have he : aget dupStartNtf "eye_id" = some (PyVal.num 0) := by decide
  simp [processNotification, ht, he]

/-- C1 amended: the duplicate request is not rejected at the supervisor —
a second OS process is spawned — but the spawned eye worker itself
detects the already-true shared flag, logs the warning and returns
without entering the lifecycle guard: the flag stays true, no further
`eye_process.*` notification is published, and of the two spawned
workers exactly one is live, so exactly one live eye process exists for
that id. -/
theorem claim_C1_amended (st0 : EyeWorld) (h0 : st0.isAlive = false) :
    (∀ st : LauncherSt,
      processNotification "capture" dupStartTopic dupStartNtf st =
        some { st with spawned := st.spawned ++ [SpawnRec.eyeProc 0] }) ∧
    ((eyeStartPhase 0 st0).2 = EyeStart.entered) ∧
    ((eyeStartPhase 0 st0).1.isAlive = true) ∧
    ((eyeStartPhase 0 (eyeStartPhase 0 st0).1).2 = EyeStart.aborted) ∧
    ((eyeStartPhase 0 (eyeStartPhase 0 st0).1).1.isAlive = true) ∧
    ((eyeStartPhase 0 (eyeStartPhase 0 st0).1).1.notes =
      st0.notes ++ [startedNote 0]) ∧
    ((eyeStartPhase 0 (eyeStartPhase 0 st0).1).1.logs =
      (eyeStartPhase 0 st0).1.logs ++ [redundantWarning]) ∧
    ([(eyeStartPhase 0 st0).2,
      (eyeStartPhase 0 (eyeStartPhase 0 st0).1).2].count EyeStart.entered = 1) := by
  have h1 : eyeStartPhase 0 st0 =
      ({ st0 with isAlive := true, notes := st0.notes ++ [startedNote 0] },
        EyeStart.entered) := by
    simp [eyeStartPhase, eyeCheckRedundant, isAliveEnter, h0]
  have h2 : eyeStartPhase 0 (eyeStartPhase 0 st0).1 =
      ({ isAlive := true, notes := st0.notes ++ [startedNote 0],
         logs := st0.logs ++ [redundantWarning] }, EyeStart.aborted) := by
    rw [h1]
    simp [eyeStartPhase, eyeCheckRedundant]
  refine ⟨?_, ?_, ?_, ?_, ?_, ?_, ?_, ?_⟩
  · intro st
    have ht : strContains dupStartTopic "notify.eye_process.should_start" = true := by
      decide
    have he : aget dupStartNtf "eye_id" = some (PyVal.num 0) := by decide
    simp [processNotification, ht, he]
  · rw [h1]
  · rw [h1]
  · rw [h2]
  · rw [h2]
  · rw [h2]
  · rw [h2, h1]
  · rw [h2, h1]
    rfl

/-- Witness for C1's amended claim at the all-false initial state. -/
theorem claim_C1_amended_witness :
    ((eyeStartPhase 0 (⟨false, [], []⟩ : EyeWorld)).2 = EyeStart.entered) ∧
    ((eyeStartPhase 0 (eyeStartPhase 0 (⟨false, [], []⟩ : EyeWorld)).1).2 =
      EyeStart.aborted) := by
  have h := claim_C1_amended ⟨false, [], []⟩ rfl
  exact ⟨h.2.1, h.2.2.2.1⟩

/-! ## Launcher startup handshake (main.py:326-346) -/

/-- An observable launcher action on its bus endpoints. -/
inductive LAct : Type
  | notifyPush (subject : String)
  | recvCmd
deriving DecidableEq, Repr

/-- String suffix test (used to recognise `*.should_start` subjects). -/
def strEndsWith (t sfx : String) : Bool :=
  List.isPrefixOf sfx.data.reverse t.data.reverse

/-- main.py:326-331:
`while True: cmd_push.notify({"subject": "ipc_startup"})` then
`if cmd_sub.socket.poll(timeout=50): cmd_sub.recv(); break`.
`polls` is the sequence of poll outcomes (true = the launcher's own
subscription delivered a message within the 50 ms timeout — at this
point of startup only its own `ipc_startup` echoes circulate, no worker
exists yet).  Returns the actions performed, in order, and whether the
loop exited; while polls keep failing it never exits (an exhausted
outcome list leaves it mid-loop with no further action). -/
def handshake : List Bool → List LAct × Bool
  | [] => ([], false)
  | b :: rest =>
    if b then ([LAct.notifyPush "ipc_startup", LAct.recvCmd], true)
    else
      let r := handshake rest
      (LAct.notifyPush "ipc_startup" :: r.1, r.2)

/-- main.py:338-346: the app-specific worker-start push issued right
after the handshake loop. -/
def appStartNotify : String → List LAct
  | "service" => [LAct.notifyPush "service_process.should_start"]
  | "capture" => [LAct.notifyPush "world_process.should_start"]
  | "player" => [LAct.notifyPush "player_drop_process.should_start"]
  | _ => []

/-- The launcher's startup action trace: the handshake first; the
worker-start notification is only reached once the handshake completed. -/
def launcherStartup (polls : List Bool) (app : String) : List LAct :=
  (handshake polls).1 ++ (if (handshake polls).2 then appStartNotify app else [])

theorem handshake_mem (polls : List Bool) (a : LAct)
    (h : a ∈ (handshake polls).1) :
    a = LAct.notifyPush "ipc_startup" ∨ a = LAct.recvCmd := by
  induction polls with
  | nil => simp [handshake] at h
  | cons b rest ih =>
    cases b with
    | true => simpa [handshake] using h
    | false =>
      rcases (by simpa [handshake] using h :
          a = LAct.notifyPush "ipc_startup" ∨ a ∈ (handshake rest).1) with h1 | h1
      · exact Or.inl h1
      · exact ih h1

theorem handshake_done_recv (polls : List Bool)
    (h : (handshake polls).2 = true) : LAct.recvCmd ∈ (handshake polls).1 := by
  induction polls with
  | nil => simp [handshake] at h
  | cons b rest ih =>
    cases b with
    | true => simp [handshake]
    | false =>
      have h' : (handshake rest).2 = true := by simpa [handshake] using h
      simp [handshake]
      exact ih h'

/-- C6: in every launcher startup trace, any pushed notification whose
subject ends in `should_start` is strictly preceded by the receipt of an
`ipc_startup` echo on the launcher's own subscription — the handshake
loop (publish `ipc_startup`, bounded 50 ms poll, repeat until received)
completes before any worker-start notification is sent. -/
theorem claim_C6_handshake_before_start (polls : List Bool) (app : String)
    (l1 l2 : List LAct) (s : String)
    (htr : launcherStartup polls app = l1 ++ LAct.notifyPush s :: l2)
    (hs : strEndsWith s "should_start" = true) :
    LAct.recvCmd ∈ l1 := by
  have hnotip : s ≠ "ipc_startup" := by
    intro hh
    subst hh
    exact absurd hs (by decide)
  have hdone : (handshake polls).2 = true := by
    by_contra hfalse
    have h2 : (handshake polls).2 = false := by simpa using hfalse
    have hmem : LAct.notifyPush s ∈ (handshake polls).1 := by
      have hm : LAct.notifyPush s ∈ launcherStartup polls app := by
        rw [htr]
        exact List.mem_append_right l1 (List.mem_cons_self _ _)
      simpa [launcherStartup, h2] using hm
    rcases handshake_mem polls _ hmem with h3 | h3
    · injection h3 with h4
      exact hnotip h4
    · cases h3
  have hrecv := handshake_done_recv polls hdone
  have htr2 : (handshake polls).1 ++ appStartNotify app =
      l1 ++ LAct.notifyPush s :: l2 := by
    simpa [launcherStartup, hdone] using htr
  rcases List.append_eq_append_iff.1 htr2 with ⟨a, ha1, _⟩ | ⟨c, hc1, hc2⟩
  · rw [ha1]
    exact List.mem_append_left a hrecv
  · cases c with
    | nil =>
      simp at hc1
      rw [← hc1]
      exact hrecv
    | cons x c' =>
      have hx : x = LAct.notifyPush s := by
        have h5 : LAct.notifyPush s :: l2 = x :: (c' ++ appStartNotify app) := hc2
        injection h5 with h6 _
        exact h6.symm
      have hxmem : x ∈ (handshake polls).1 := by
        rw [hc1]
        exact List.mem_append_right l1 (List.mem_cons_self _ _)
      rcases handshake_mem polls x hxmem with h3 | h3
      · rw [hx] at h3
        injection h3 with h4
        exact absurd h4 hnotip
      · rw [hx] at h3
        cases h3

/-- Witness for C6: two handshake rounds (first poll times out, second
receives), then the `capture` worker start — the receipt precedes it. -/
theorem claim_C6_handshake_before_start_witness :
    LAct.recvCmd ∈ [LAct.notifyPush "ipc_startup", LAct.notifyPush "ipc_startup",
      LAct.recvCmd] := by
  exact claim_C6_handshake_before_start [false, true] "capture"
    [LAct.notifyPush "ipc_startup", LAct.notifyPush "ipc_startup", LAct.recvCmd] []
    "world_process.should_start" (by decide) (by decide)

/-! ## Delayed Dispatch Proxy (main.py:178-201; the same loop appears at
neon_backend/__main__.py:122-153) -/

/-- `TOPIC_CUTOFF = len("delayed_")` (main.py:186). -/
def topicCutoff : Nat := "delayed_".length

/-- `poller.poll(timeout=250)` (main.py:189): the poll bound, in ms. -/
def pollTimeoutMs : Nat := 250

/-- The pending store `waiting_notifications`: one notification per
`subject` key. -/
abbrev Waiting : Type := PyDict Notification

/-- main.py:190-193: receive one delayed notification and store it:
`n["__notify_time__"] = time() + n["delay"]` then
`waiting_notifications[n["subject"]] = n`.  `none` models the exception
(killing the proxy thread) on a payload without a numeric `delay` or a
string `subject`. -/
def recvDelayed (now : Nat) (n : Notification) (w : Waiting) : Option Waiting :=
  match aget n "delay", aget n "subject" with
  | some (PyVal.num d), some (PyVal.str s) =>
    some (aset w s (aset n "__notify_time__" (PyVal.num (now + d))))
  | _, _ => none

/-- The payload's `topic` value (a string under well-formedness). -/
def topicStringOf (n : Notification) : String :=
  match aget n "topic" with
  | some (PyVal.str t) => t
  | _ => ""

/-- main.py:197-199 applied to one fired notification:
`n["topic"] = n["topic"][TOPIC_CUTOFF:]`, `del n["__notify_time__"]`,
`del n["delay"]` — what `pub.notify(n)` then publishes. -/
def stripDelayed (n : Notification) : Notification :=
  adel (adel (aset n "topic" (PyVal.str ((topicStringOf n).drop topicCutoff)))
    "__notify_time__") "delay"

/-- `n["__notify_time__"] < time()` (main.py:196) as a predicate on the
stored entry. -/
def elapsedB (now : Nat) (n : Notification) : Bool :=
  match aget n "__notify_time__" with
  | some (PyVal.num T) => decide (T < now)
  | _ => false

/-- main.py:195-201: iterate over the snapshot
`list(waiting_notifications.items())`; for each entry whose fire time
has passed, delete it from the live dict and publish the stripped
notification.  `none` models an exception on a malformed stored entry. -/
def scanGo (now : Nat) : List (String × Notification) → Waiting →
    Option (Waiting × List Notification)
  | [], w => some (w, [])
  | (s, n) :: rest, w =>
    match aget n "__notify_time__" with
    | some (PyVal.num T) =>
      if T < now then
        match aget n "topic" with
        | some (PyVal.str _) =>
          match scanGo now rest (adel w s) with
          | some (w', pubs) => some (w', stripDelayed n :: pubs)
          | none => none
        | _ => none
      else scanGo now rest w
    | _ => none

/-- The full firing scan over the live dict and its own snapshot. -/
def scanFire (now : Nat) (w : Waiting) : Option (Waiting × List Notification) :=
  scanGo now w w

/-- One pass of the proxy's `while True` loop: the 250 ms poll either
yields one delayed notification or times out, then the firing scan runs
either way.  `now` is the `time()` of the pass. -/
structure IterIn : Type where
  now : Nat
  msg : Option Notification
deriving DecidableEq, Repr

def delayIteration (it : IterIn) (w : Waiting) :
    Option (Waiting × List Notification) :=
  match it.msg with
  | some n =>
    match recvDelayed it.now n w with
    | some w' => scanFire it.now w'
    | none => none
  | none => scanFire it.now w

/-- A run of the proxy loop over a sequence of passes; each publish is
tagged with the time of the pass that fired it. -/
def delayRun : List IterIn → Waiting → Option (Waiting × List (Nat × Notification))
  | [], w => some (w, [])
  | it :: rest, w =>
    match delayIteration it w with
    | some (w', pubs) =>
      match delayRun rest w' with
      | some (wfin, out) => some (wfin, pubs.map (fun n => (it.now, n)) ++ out)
      | none => none
    | none => none

def optIsNum : Option PyVal → Bool
  | some (PyVal.num _) => true
  | _ => false

def optIsStr : Option PyVal → Bool
  | some (PyVal.str _) => true
  | _ => false

/-- A well-formed incoming delayed notification: numeric `delay`, string
`subject`, string `topic`, no duplicate keys. -/
def msgWFb (n : Notification) : Bool :=
  optIsNum (aget n "delay") && optIsStr (aget n "subject") &&
    optIsStr (aget n "topic") && decide (keysND n)

/-- A well-formed pending entry stored under key `s`. -/
def entryWFb (s : String) (n : Notification) : Bool :=
  decide (aget n "subject" = some (PyVal.str s)) &&
    optIsNum (aget n "__notify_time__") && optIsNum (aget n "delay") &&
    optIsStr (aget n "topic") && decide (keysND n)

/-- A well-formed pending store. -/
def waitingWFb (w : Waiting) : Bool :=
  decide (keysND w) && w.all (fun e => entryWFb e.1 e.2)

def inpsWFb (inps : List IterIn) : Bool :=
  inps.all (fun it => match it.msg with
    | some n => msgWFb n
    | none => true)

/-- No pass's incoming message carries subject `s`. -/
def noSubjMsgB (s : String) (inps : List IterIn) : Bool :=
  inps.all (fun it => match it.msg with
    | some n => decide (aget n "subject" ≠ some (PyVal.str s))
    | none => true)

/-- The run's published output restricted to subject `s`. -/
def pubsFor (s : String) (out : List (Nat × Notification)) :
    List (Nat × Notification) :=
  out.filter (fun p => decide (aget p.2 "subject" = some (PyVal.str s)))

def pubsForN (s : String) (l : List Notification) : List Notification :=
  l.filter (fun n => decide (aget n "subject" = some (PyVal.str s)))

theorem optIsNum_ex (o : Option PyVal) (h : optIsNum o = true) :
    ∃ k, o = some (PyVal.num k) := by
  match o, h with
  | some (PyVal.num k), _ => exact ⟨k, rfl⟩

theorem optIsStr_ex (o : Option PyVal) (h : optIsStr o = true) :
    ∃ t, o = some (PyVal.str t) := by
  match o, h with
  | some (PyVal.str t), _ => exact ⟨t, rfl⟩

theorem stripDelayed_subject (n : Notification) :
    aget (stripDelayed n) "subject" = aget n "subject" := by
  unfold stripDelayed
  rw [aget_adel_ne _ _ _ (by decide), aget_adel_ne _ _ _ (by decide),
    aget_aset_ne _ _ _ _ (by decide)]

theorem stripDelayed_notify_time (n : Notification) (hnd : keysND n) :
    aget (stripDelayed n) "__notify_time__" = none := by
  unfold stripDelayed
  rw [aget_adel_ne _ _ _ (by decide)]
  exact aget_adel_self _ _ (keysND_aset n "topic" _ hnd)

theorem stripDelayed_delay (n : Notification) (hnd : keysND n) :
    aget (stripDelayed n) "delay" = none := by
  unfold stripDelayed
  exact aget_adel_self _ _
    (keysND_adel _ _ (keysND_aset n "topic" _ hnd))

theorem stripDelayed_topic (n : Notification) :
    aget (stripDelayed n) "topic" =
      some (PyVal.str ((topicStringOf n).drop topicCutoff)) := by
  unfold stripDelayed
  rw [aget_adel_ne _ _ _ (by decide), aget_adel_ne _ _ _ (by decide),
    aget_aset_self]

theorem scanGo_eq (now : Nat) (es : List (String × Notification)) :
    ∀ w : Waiting,
    (∀ e ∈ es, optIsNum (aget e.2 "__notify_time__") = true ∧
      optIsStr (aget e.2 "topic") = true) →
    scanGo now es w = some
      ((es.filter (fun e => elapsedB now e.2)).foldl (fun v e => adel v e.1) w,
       (es.filter (fun e => elapsedB now e.2)).map (fun e => stripDelayed e.2)) := by
  induction es with
  | nil =>
    intro w h
    rfl
  | cons e rest ih =>
    intro w h
    obtain ⟨s, n⟩ := e
    obtain ⟨hT, htop⟩ := h (s, n) (List.mem_cons_self _ _)
    obtain ⟨T, hTeq⟩ := optIsNum_ex _ hT
    obtain ⟨t, hteq⟩ := optIsStr_ex _ htop
    have hrest := ih (adel w s) (fun e he => h e (List.mem_cons_of_mem _ he))
    have hrest2 := ih w (fun e he => h e (List.mem_cons_of_mem _ he))
    by_cases hcmp : T < now
    · have hel : elapsedB now n = true := by simp [elapsedB, hTeq, hcmp]
      rw [show scanGo now ((s, n) :: rest) w =
          (match scanGo now rest (adel w s) with
           | some (w', pubs) => some (w', stripDelayed n :: pubs)
           | none => none) from by
        simp [scanGo, hTeq, hcmp, hteq]]
      rw [hrest]
      simp [hel]
    · have hel : elapsedB now n = false := by simp [elapsedB, hTeq, hcmp]
      rw [show scanGo now ((s, n) :: rest) w = scanGo now rest w from by
        simp [scanGo, hTeq, hcmp]]
      rw [hrest2]
      simp [hel]

theorem mem_foldl_adel (ds : List (String × Notification)) :
    ∀ (w : Waiting) (e : String × Notification),
    e ∈ ds.foldl (fun v x => adel v x.1) w → e ∈ w := by
  induction ds with
  | nil =>
    intro w e h
    simpa using h
  | cons d rest ih =>
    intro w e h
    rw [List.foldl_cons] at h
    exact mem_adel _ _ _ (ih (adel w d.1) e h)

theorem keysND_foldl_adel (ds : List (String × Notification)) :
    ∀ (w : Waiting), keysND w → keysND (ds.foldl (fun v x => adel v x.1) w) := by
  induction ds with
  | nil =>
    intro w h
    simpa using h
  | cons d rest ih =>
    intro w h
    rw [List.foldl_cons]
    exact ih (adel w d.1) (keysND_adel w d.1 h)

theorem aget_foldl_adel (ds : List (String × Notification)) :
    ∀ (w : Waiting), keysND w → ∀ s : String,
    aget (ds.foldl (fun v x => adel v x.1) w) s =
      if s ∈ ds.map Prod.fst then none else aget w s := by
  induction ds with
  | nil =>
    intro w hnd s
    simp
  | cons d rest ih =>
    intro w hnd s
    rw [List.foldl_cons, ih (adel w d.1) (keysND_adel w d.1 hnd) s]
    by_cases h1 : s ∈ rest.map Prod.fst
    · simp [h1]
    · by_cases h2 : s = d.1
      · subst h2
        simp [h1, aget_adel_self w d.1 hnd]
      · simp [h1, h2, aget_adel_ne w d.1 s h2]

theorem waitingWFb_keysND (w : Waiting) (h : waitingWFb w = true) : keysND w := by
  unfold waitingWFb at h
  rw [Bool.and_eq_true] at h
  exact of_decide_eq_true h.1

theorem waitingWFb_mem (w : Waiting) (h : waitingWFb w = true)
    (e : String × Notification) (he : e ∈ w) : entryWFb e.1 e.2 = true := by
  unfold waitingWFb at h
  rw [Bool.and_eq_true] at h
  exact (List.all_eq_true.1 h.2) e he

theorem entryWFb_parts (s : String) (n : Notification)
    (h : entryWFb s n = true) :
    aget n "subject" = some (PyVal.str s) ∧
    optIsNum (aget n "__notify_time__") = true ∧
    optIsNum (aget n "delay") = true ∧
    optIsStr (aget n "topic") = true ∧ keysND n := by
  unfold entryWFb at h
  rw [Bool.and_eq_true, Bool.and_eq_true, Bool.and_eq_true, Bool.and_eq_true] at h
  obtain ⟨⟨⟨⟨h1, h2⟩, h3⟩, h4⟩, h5⟩ := h
  exact ⟨of_decide_eq_true h1, h2, h3, h4, of_decide_eq_true h5⟩

theorem msgWFb_parts (n : Notification) (h : msgWFb n = true) :
    optIsNum (aget n "delay") = true ∧
    optIsStr (aget n "subject") = true ∧
    optIsStr (aget n "topic") = true ∧ keysND n := by
  unfold msgWFb at h
  rw [Bool.and_eq_true, Bool.and_eq_true, Bool.and_eq_true] at h
  obtain ⟨⟨⟨h1, h2⟩, h3⟩, h4⟩ := h
  exact ⟨h1, h2, h3, of_decide_eq_true h4⟩

theorem pubsForN_nil_of_no_key (now : Nat) (s : String) :
    ∀ w : Waiting,
    (∀ e ∈ w, aget e.2 "subject" = some (PyVal.str e.1)) →
    s ∉ keysOf w →
    pubsForN s ((w.filter (fun e => elapsedB now e.2)).map
      (fun e => stripDelayed e.2)) = [] := by
  intro w
  induction w with
  | nil => intro _ _; rfl
  | cons e rest ih =>
    intro hsub hnk
    obtain ⟨k, n⟩ := e
    rw [keysOf_cons] at hnk
    have hks : k ≠ s := fun hh => hnk (by simp [hh])
    have hrest : s ∉ keysOf rest := fun hh => hnk (List.mem_cons_of_mem _ hh)
    have hsubn : aget n "subject" = some (PyVal.str k) :=
      hsub (k, n) (List.mem_cons_self _ _)
    have hne : ¬ aget (stripDelayed n) "subject" = some (PyVal.str s) := by
      rw [stripDelayed_subject, hsubn]
      intro hh
      injection hh with hh2
      injection hh2 with hh3
      exact hks hh3
    have ihr := ih (fun e he => hsub e (List.mem_cons_of_mem _ he)) hrest
    by_cases hel : elapsedB now n
    · rw [show ((k, n) :: rest).filter (fun e => elapsedB now e.2) =
          (k, n) :: rest.filter (fun e => elapsedB now e.2) from by
        simp [List.filter_cons, hel]]
      rw [List.map_cons]
      rw [show pubsForN s (stripDelayed n ::
          (rest.filter (fun e => elapsedB now e.2)).map (fun e => stripDelayed e.2)) =
          pubsForN s ((rest.filter (fun e => elapsedB now e.2)).map
            (fun e => stripDelayed e.2)) from by
        simp [pubsForN, List.filter_cons, hne]]
      exact ihr
    · rw [show ((k, n) :: rest).filter (fun e => elapsedB now e.2) =
          rest.filter (fun e => elapsedB now e.2) from by
        simp [List.filter_cons, hel]]
      exact ihr

theorem pubsForN_scanPubs (now : Nat) (s : String) :
    ∀ w : Waiting, keysND w →
    (∀ e ∈ w, aget e.2 "subject" = some (PyVal.str e.1)) →
    pubsForN s ((w.filter (fun e => elapsedB now e.2)).map
      (fun e => stripDelayed e.2)) =
      (match aget w s with
       | some n => if elapsedB now n then [stripDelayed n] else []
       | none => []) := by
  intro w
  induction w with
  | nil => intro _ _; rfl
  | cons e rest ih =>
    intro hnd hsub
    obtain ⟨k, n⟩ := e
    rw [keysND_cons] at hnd
    have hsubn : aget n "subject" = some (PyVal.str k) :=
      hsub (k, n) (List.mem_cons_self _ _)
    have hsubrest : ∀ e ∈ rest, aget e.2 "subject" = some (PyVal.str e.1) :=
      fun e he => hsub e (List.mem_cons_of_mem _ he)
    by_cases hks : k = s
    · subst hks
      have hrest0 : pubsForN k ((rest.filter (fun e => elapsedB now e.2)).map
          (fun e => stripDelayed e.2)) = [] :=
        pubsForN_nil_of_no_key now k rest hsubrest hnd.1
      have hagw : aget ((k, n) :: rest) k = some n := by simp [aget]
      rw [hagw]
      have hkeep : aget (stripDelayed n) "subject" = some (PyVal.str k) := by
        rw [stripDelayed_subject]; exact hsubn
      by_cases hel : elapsedB now n
      · rw [show ((k, n) :: rest).filter (fun e => elapsedB now e.2) =
            (k, n) :: rest.filter (fun e => elapsedB now e.2) from by
          simp [List.filter_cons, hel]]
        rw [List.map_cons]
        rw [show pubsForN k (stripDelayed n ::
            (rest.filter (fun e => elapsedB now e.2)).map (fun e => stripDelayed e.2)) =
            stripDelayed n :: pubsForN k ((rest.filter (fun e => elapsedB now e.2)).map
              (fun e => stripDelayed e.2)) from by
          simp [pubsForN, List.filter_cons, hkeep]]
        rw [hrest0]
        simp [hel]
      · rw [show ((k, n) :: rest).filter (fun e => elapsedB now e.2) =
            rest.filter (fun e => elapsedB now e.2) from by
          simp [List.filter_cons, hel]]
        rw [hrest0]
        simp [hel]
    · have hagw : aget ((k, n) :: rest) s = aget rest s := by simp [aget, hks]
      rw [hagw]
      have hne : ¬ aget (stripDelayed n) "subject" = some (PyVal.str s) := by
        rw [stripDelayed_subject, hsubn]
        intro hh
        injection hh with hh2
        injection hh2 with hh3
        exact hks hh3
      have ihr := ih hnd.2 hsubrest
      by_cases hel : elapsedB now n
      · rw [show ((k, n) :: rest).filter (fun e => elapsedB now e.2) =
            (k, n) :: rest.filter (fun e => elapsedB now e.2) from by
          simp [List.filter_cons, hel]]
        rw [List.map_cons]
        rw [show pubsForN s (stripDelayed n ::
            (rest.filter (fun e => elapsedB now e.2)).map (fun e => stripDelayed e.2)) =
            pubsForN s ((rest.filter (fun e => elapsedB now e.2)).map
              (fun e => stripDelayed e.2)) from by
          simp [pubsForN, List.filter_cons, hne]]
        exact ihr
      · rw [show ((k, n) :: rest).filter (fun e => elapsedB now e.2) =
            rest.filter (fun e => elapsedB now e.2) from by
          simp [List.filter_cons, hel]]
        exact ihr

theorem mem_filterKeys_iff (p : Notification → Bool) :
    ∀ w : Waiting, keysND w → ∀ s : String,
    (s ∈ (w.filter (fun e => p e.2)).map Prod.fst ↔
      ∃ n, aget w s = some n ∧ p n = true) := by
  intro w
  induction w with
  | nil =>
    intro _ s
    simp [aget]
  | cons e rest ih =>
    intro hnd s
    obtain ⟨k, n⟩ := e
    rw [keysND_cons] at hnd
    have ihr := ih hnd.2 s
    by_cases hks : k = s
    · subst hks
      have hagn : aget rest k = none := aget_eq_none_of_not_mem_keys rest k hnd.1
      by_cases hp : p n
      · rw [show ((k, n) :: rest).filter (fun e => p e.2) =
            (k, n) :: rest.filter (fun e => p e.2) from by simp [List.filter_cons, hp]]
        simp [aget, hp]
      · rw [show ((k, n) :: rest).filter (fun e => p e.2) =
            rest.filter (fun e => p e.2) from by simp [List.filter_cons, hp]]
        rw [ihr, hagn]
        simp [aget, hp]
    · have hag : aget ((k, n) :: rest) s = aget rest s := by simp [aget, hks]
      by_cases hp : p n
      · rw [show ((k, n) :: rest).filter (fun e => p e.2) =
            (k, n) :: rest.filter (fun e => p e.2) from by simp [List.filter_cons, hp]]
        rw [List.map_cons]
        simp only [List.mem_cons]
        rw [hag, ihr]
        constructor
        · intro hor
          rcases hor with h1 | h1
          · exact absurd h1.symm hks
          · exact h1
        · intro h1
          exact Or.inr h1
      · rw [show ((k, n) :: rest).filter (fun e => p e.2) =
            rest.filter (fun e => p e.2) from by simp [List.filter_cons, hp]]
        rw [hag]
        exact ihr

theorem scanFire_spec (now : Nat) (w : Waiting) (hwf : waitingWFb w = true) :
    ∃ w' pubs, scanFire now w = some (w', pubs) ∧
      waitingWFb w' = true ∧
      (∀ s : String, aget w' s =
        (match aget w s with
         | some n => if elapsedB now n then none else some n
         | none => none)) ∧
      (∀ s : String, pubsForN s pubs =
        (match aget w s with
         | some n => if elapsedB now n then [stripDelayed n] else []
         | none => [])) := by
  have hnd := waitingWFb_keysND w hwf
  have hparts : ∀ e ∈ w, optIsNum (aget e.2 "__notify_time__") = true ∧
      optIsStr (aget e.2 "topic") = true := by
    intro e he
    have h := entryWFb_parts e.1 e.2 (waitingWFb_mem w hwf e he)
    exact ⟨h.2.1, h.2.2.2.1⟩
  have hsub : ∀ e ∈ w, aget e.2 "subject" = some (PyVal.str e.1) := by
    intro e he
    exact (entryWFb_parts e.1 e.2 (waitingWFb_mem w hwf e he)).1
  have heq := scanGo_eq now w w hparts
  refine ⟨_, _, heq, ?_, ?_, ?_⟩
  · -- well-formedness of the post-scan dict
    unfold waitingWFb
    rw [Bool.and_eq_true]
    constructor
    · exact decide_eq_true (keysND_foldl_adel _ w hnd)
    · rw [List.all_eq_true]
      intro e he
      exact waitingWFb_mem w hwf e (mem_foldl_adel _ w e he)
  · intro s
    rw [aget_foldl_adel _ w hnd s]
    rcases hag : aget w s with _ | n
    · rw [if_neg]
      intro hmem
      obtain ⟨n, hn, _⟩ := (mem_filterKeys_iff _ w hnd s).1 hmem
      rw [hag] at hn
      cases hn
    · by_cases hel : elapsedB now n
      · rw [if_pos]
        · simp [hel]
        · exact (mem_filterKeys_iff _ w hnd s).2 ⟨n, hag, hel⟩
      · rw [if_neg]
        · simp [hel]
        · intro hmem
          obtain ⟨n', hn', hp'⟩ := (mem_filterKeys_iff _ w hnd s).1 hmem
          rw [hag] at hn'
          injection hn' with hn2
          rw [hn2] at hel
          exact hel hp'
  · intro s
    exact pubsForN_scanPubs now s w hnd hsub

theorem recvDelayed_wf (now : Nat) (n : Notification) (w : Waiting)
    (hm : msgWFb n = true) (hwf : waitingWFb w = true) :
    ∃ s d, aget n "subject" = some (PyVal.str s) ∧
      aget n "delay" = some (PyVal.num d) ∧
      recvDelayed now n w =
        some (aset w s (aset n "__notify_time__" (PyVal.num (now + d)))) ∧
      waitingWFb (aset w s (aset n "__notify_time__" (PyVal.num (now + d)))) = true := by
  obtain ⟨hdel, hsubj, htop, hknd⟩ := msgWFb_parts n hm
  obtain ⟨d, hd⟩ := optIsNum_ex _ hdel
  obtain ⟨s, hs⟩ := optIsStr_ex _ hsubj
  obtain ⟨t, ht⟩ := optIsStr_ex _ htop
  refine ⟨s, d, hs, hd, by simp [recvDelayed, hd, hs], ?_⟩
  have hsub' : aget (aset n "__notify_time__" (PyVal.num (now + d))) "subject" =
      some (PyVal.str s) := by
    rw [aget_aset_ne n _ _ _ (by decide)]; exact hs
  have hdel' : aget (aset n "__notify_time__" (PyVal.num (now + d))) "delay" =
      some (PyVal.num d) := by
    rw [aget_aset_ne n _ _ _ (by decide)]; exact hd
  have htop' : aget (aset n "__notify_time__" (PyVal.num (now + d))) "topic" =
      some (PyVal.str t) := by
    rw [aget_aset_ne n _ _ _ (by decide)]; exact ht
  have hnt' : aget (aset n "__notify_time__" (PyVal.num (now + d))) "__notify_time__" =
      some (PyVal.num (now + d)) := aget_aset_self n _ _
  have hentry : entryWFb s (aset n "__notify_time__" (PyVal.num (now + d))) = true := by
    simp [entryWFb, hsub', hdel', htop', hnt', optIsNum, optIsStr,
      keysND_aset n _ _ hknd]
  unfold waitingWFb
  rw [Bool.and_eq_true]
  constructor
  · exact decide_eq_true (keysND_aset w s _ (waitingWFb_keysND w hwf))
  · rw [List.all_eq_true]
    intro e he
    rcases mem_aset w s _ e he with h1 | h1
    · rw [h1]
      exact hentry
    · exact waitingWFb_mem w hwf e h1

theorem delayIteration_spec (it : IterIn) (w : Waiting) (s : String)
    (hwf : waitingWFb w = true)
    (hm : ∀ n, it.msg = some n → msgWFb n = true ∧
      aget n "subject" ≠ some (PyVal.str s)) :
    ∃ w' pubs, delayIteration it w = some (w', pubs) ∧
      waitingWFb w' = true ∧
      aget w' s = (match aget w s with
        | some n => if elapsedB it.now n then none else some n
        | none => none) ∧
      pubsForN s pubs = (match aget w s with
        | some n => if elapsedB it.now n then [stripDelayed n] else []
        | none => []) := by
  rcases hmsg : it.msg with _ | n
  · obtain ⟨w', pubs, hscan, hwf', hag, hpub⟩ := scanFire_spec it.now w hwf
    exact ⟨w', pubs, by simp [delayIteration, hmsg, hscan], hwf', hag s, hpub s⟩
  · obtain ⟨hwfn, hne⟩ := hm n hmsg
    obtain ⟨s', d, hs', hd, hrecv, hwf1⟩ := recvDelayed_wf it.now n w hwfn hwf
    have hsne : s ≠ s' := by
      intro hh
      rw [hh] at hne
      exact hne hs'
    have hag1 : aget (aset w s' (aset n "__notify_time__" (PyVal.num (it.now + d)))) s =
        aget w s := aget_aset_ne w s' s _ hsne
    obtain ⟨w', pubs, hscan, hwf', hag, hpub⟩ := scanFire_spec it.now _ hwf1
    refine ⟨w', pubs, ?_, hwf', ?_, ?_⟩
    · simp [delayIteration, hmsg, hrecv, hscan]
    · rw [hag s, hag1]
    · rw [hpub s, hag1]

theorem inpsWFb_cons (it : IterIn) (rest : List IterIn)
    (h : inpsWFb (it :: rest) = true) :
    (∀ n, it.msg = some n → msgWFb n = true) ∧ inpsWFb rest = true := by
  unfold inpsWFb at h ⊢
  rw [List.all_cons, Bool.and_eq_true] at h
  refine ⟨?_, h.2⟩
  intro n hn
  have h1 := h.1
  rw [hn] at h1
  exact h1

theorem noSubjMsgB_cons (s : String) (it : IterIn) (rest : List IterIn)
    (h : noSubjMsgB s (it :: rest) = true) :
    (∀ n, it.msg = some n → aget n "subject" ≠ some (PyVal.str s)) ∧
      noSubjMsgB s rest = true := by
  unfold noSubjMsgB at h ⊢
  rw [List.all_cons, Bool.and_eq_true] at h
  refine ⟨?_, h.2⟩
  intro n hn
  have h1 := h.1
  rw [hn] at h1
  exact of_decide_eq_true h1

theorem pubsFor_append (s : String) (a b : List (Nat × Notification)) :
    pubsFor s (a ++ b) = pubsFor s a ++ pubsFor s b := by
  simp [pubsFor, List.filter_append]

theorem pubsFor_map_tag (s : String) (t : Nat) (l : List Notification) :
    pubsFor s (l.map (fun n => (t, n))) =
      (pubsForN s l).map (fun n => (t, n)) := by
  induction l with
  | nil => rfl
  | cons n rest ih =>
    rw [List.map_cons]
    by_cases hp : aget n "subject" = some (PyVal.str s)
    · rw [show pubsFor s ((t, n) :: rest.map (fun n => (t, n))) =
          (t, n) :: pubsFor s (rest.map (fun n => (t, n))) from by
        simp [pubsFor, List.filter_cons, hp]]
      rw [show pubsForN s (n :: rest) = n :: pubsForN s rest from by
        simp [pubsForN, List.filter_cons, hp]]
      rw [List.map_cons, ih]
    · rw [show pubsFor s ((t, n) :: rest.map (fun n => (t, n))) =
          pubsFor s (rest.map (fun n => (t, n))) from by
        simp [pubsFor, List.filter_cons, hp]]
      rw [show pubsForN s (n :: rest) = pubsForN s rest from by
        simp [pubsForN, List.filter_cons, hp]]
      exact ih

theorem delayRun_absent (s : String) :
    ∀ (inps : List IterIn) (w : Waiting),
    waitingWFb w = true → inpsWFb inps = true → noSubjMsgB s inps = true →
    aget w s = none →
    ∃ wfin out, delayRun inps w = some (wfin, out) ∧
      waitingWFb wfin = true ∧ aget wfin s = none ∧ pubsFor s out = [] := by
  intro inps
  induction inps with
  | nil =>
    intro w hwf _ _ hnone
    exact ⟨w, [], rfl, hwf, hnone, rfl⟩
  | cons it rest ih =>
    intro w hwf hin hns hnone
    obtain ⟨hin1, hin2⟩ := inpsWFb_cons it rest hin
    obtain ⟨hns1, hns2⟩ := noSubjMsgB_cons s it rest hns
    have hm : ∀ n, it.msg = some n → msgWFb n = true ∧
        aget n "subject" ≠ some (PyVal.str s) :=
      fun n hn => ⟨hin1 n hn, hns1 n hn⟩
    obtain ⟨w', pubs, hit, hwf', hag, hpub⟩ := delayIteration_spec it w s hwf hm
    rw [hnone] at hag hpub
    have hag' : aget w' s = none := hag
    have hpub' : pubsForN s pubs = [] := hpub
    obtain ⟨wfin, out, hrun, hwfin, hnone2, hout⟩ := ih w' hwf' hin2 hns2 hag'
    refine ⟨wfin, pubs.map (fun m => (it.now, m)) ++ out, ?_, hwfin, hnone2, ?_⟩
    · simp [delayRun, hit, hrun]
    · rw [pubsFor_append, pubsFor_map_tag, hpub', hout]
      rfl

theorem delayRun_pending (s : String) (n : Notification) (T : Nat)
    (hT : aget n "__notify_time__" = some (PyVal.num T)) :
    ∀ (inps : List IterIn) (w : Waiting),
    waitingWFb w = true → inpsWFb inps = true → noSubjMsgB s inps = true →
    aget w s = some n →
    ∃ wfin out, delayRun inps w = some (wfin, out) ∧
      waitingWFb wfin = true ∧
      (match inps.find? (fun it => decide (T < it.now)) with
       | some itf => aget wfin s = none ∧
           pubsFor s out = [(itf.now, stripDelayed n)]
       | none => aget wfin s = some n ∧ pubsFor s out = []) := by
  intro inps
  induction inps with
  | nil =>
    intro w hwf _ _ hsome
    refine ⟨w, [], rfl, hwf, ?_⟩
    simp only [List.find?_nil]
    exact ⟨hsome, rfl⟩
  | cons it rest ih =>
    intro w hwf hin hns hsome
    obtain ⟨hin1, hin2⟩ := inpsWFb_cons it rest hin
    obtain ⟨hns1, hns2⟩ := noSubjMsgB_cons s it rest hns
    have hm : ∀ m, it.msg = some m → msgWFb m = true ∧
        aget m "subject" ≠ some (PyVal.str s) :=
      fun m hn => ⟨hin1 m hn, hns1 m hn⟩
    obtain ⟨w', pubs, hit, hwf', hag, hpub⟩ := delayIteration_spec it w s hwf hm
    rw [hsome] at hag hpub
    have hag' : aget w' s = if elapsedB it.now n then none else some n := hag
    have hpub' : pubsForN s pubs =
        if elapsedB it.now n then [stripDelayed n] else [] := hpub
    have helB : elapsedB it.now n = decide (T < it.now) := by
      simp [elapsedB, hT]
    by_cases hfire : T < it.now
    · have hel : elapsedB it.now n = true := by
        rw [helB]; exact decide_eq_true hfire
      rw [hel, if_pos rfl] at hag' hpub'
      obtain ⟨wfin, out, hrun, hwfin, hnone2, hout⟩ :=
        delayRun_absent s rest w' hwf' hin2 hns2 hag'
      refine ⟨wfin, pubs.map (fun m => (it.now, m)) ++ out, ?_, hwfin, ?_⟩
      · simp [delayRun, hit, hrun]
      · have hfind : List.find? (fun x => decide (T < x.now)) (it :: rest) =
            some it := by
          simp [List.find?_cons, hfire]
        rw [hfind]
        refine ⟨hnone2, ?_⟩
        rw [pubsFor_append, pubsFor_map_tag, hpub', hout]
        simp
    · have hel : elapsedB it.now n = false := by
        rw [helB]; exact decide_eq_false hfire
      rw [hel, if_neg (by simp)] at hag' hpub'
      obtain ⟨wfin, out, hrun, hwfin, hrest⟩ := ih w' hwf' hin2 hns2 hag'
      refine ⟨wfin, pubs.map (fun m => (it.now, m)) ++ out, ?_, hwfin, ?_⟩
      · simp [delayRun, hit, hrun]
      · have hfind0 : List.find? (fun x => decide (T < x.now)) (it :: rest) =
            List.find? (fun x => decide (T < x.now)) rest := by
          simp [List.find?_cons, hfire]
        rw [hfind0]
        rcases hfind : rest.find? (fun x => decide (T < x.now)) with _ | itf
        · rw [hfind] at hrest
          rw [hfind]
          refine ⟨hrest.1, ?_⟩
          rw [pubsFor_append, pubsFor_map_tag, hpub', hrest.2]
          rfl
        · rw [hfind] at hrest
          rw [hfind]
          refine ⟨hrest.1, ?_⟩
          rw [pubsFor_append, pubsFor_map_tag, hpub', hrest.2]
          rfl

theorem delayRun_append (a b : List IterIn) :
    ∀ w : Waiting, delayRun (a ++ b) w =
      (match delayRun a w with
       | some (w1, out1) =>
         (match delayRun b w1 with
          | some (w2, out2) => some (w2, out1 ++ out2)
          | none => none)
       | none => none) := by
  intro w
  induction a generalizing w with
  | nil =>
    rw [List.nil_append]
    rcases hb : delayRun b w with _ | p
    · simp [delayRun, hb]
    · obtain ⟨w2, out2⟩ := p
      simp [delayRun, hb]
  | cons it rest ih =>
    rw [List.cons_append]
    rcases hi : delayIteration it w with _ | p
    · simp [delayRun, hi]
    · obtain ⟨w', pubs⟩ := p
      rw [show delayRun (it :: (rest ++ b)) w =
          (match delayRun (rest ++ b) w' with
           | some (wfin, out) =>
             some (wfin, pubs.map (fun m => (it.now, m)) ++ out)
           | none => none) from by simp [delayRun, hi]]
      rw [ih w']
      rcases ha : delayRun rest w' with _ | q
      · simp [delayRun, hi, ha]
      · obtain ⟨w1, out1⟩ := q
        rcases hb : delayRun b w1 with _ | r
        · simp [delayRun, hi, ha, hb]
        · obtain ⟨w2, out2⟩ := r
          simp [delayRun, hi, ha, hb, List.append_assoc]

theorem delayRun_singleton (it : IterIn) (w w' : Waiting)
    (pubs : List Notification) (h : delayIteration it w = some (w', pubs)) :
    delayRun [it] w = some (w', pubs.map (fun m => (it.now, m))) := by
  simp [delayRun, h]

theorem delayIteration_recv_spec (it : IterIn) (w : Waiting) (s : String)
    (n : Notification) (d : Nat)
    (hmsg : it.msg = some n) (hwfn : msgWFb n = true)
    (hs : aget n "subject" = some (PyVal.str s))
    (hd : aget n "delay" = some (PyVal.num d))
    (hwf : waitingWFb w = true) :
    ∃ w' pubs, delayIteration it w = some (w', pubs) ∧
      waitingWFb w' = true ∧
      aget w' s = some (aset n "__notify_time__" (PyVal.num (it.now + d))) ∧
      pubsForN s pubs = [] := by
  obtain ⟨s', d', hs', hd', hrecv, hwfr⟩ := recvDelayed_wf it.now n w hwfn hwf
  have hseq : s' = s := by
    rw [hs] at hs'
    injection hs' with h1
    injection h1 with h2
    exact h2.symm
  have hdeq : d' = d := by
    rw [hd] at hd'
    injection hd' with h1
    injection h1 with h2
    exact h2.symm
  subst hseq
  subst hdeq
  obtain ⟨w', pubs, hscan, hwf', hag, hpub⟩ := scanFire_spec it.now _ hwfr
  have hagw1 : aget (aset w s' (aset n "__notify_time__" (PyVal.num (it.now + d'))))
      s' = some (aset n "__notify_time__" (PyVal.num (it.now + d'))) :=
    aget_aset_self w s' _
  have hnt : aget (aset n "__notify_time__" (PyVal.num (it.now + d')))
      "__notify_time__" = some (PyVal.num (it.now + d')) := aget_aset_self n _ _
  have hnoel : elapsedB it.now (aset n "__notify_time__" (PyVal.num (it.now + d'))) =
      false := by
    simp [elapsedB, hnt]
  refine ⟨w', pubs, ?_, hwf', ?_, ?_⟩
  · simp [delayIteration, hmsg, hrecv, hscan]
  · rw [hag s', hagw1]
    simp [hnoel]
  · rw [hpub s', hagw1]
    simp [hnoel]

/-- C5: one firing scan of the Delayed Dispatch Proxy publishes exactly
the pending entries whose fire time has elapsed — each published payload
is the stored notification with the first `len("delayed_")` characters
of its topic dropped and the `delay` and `__notify_time__` scheduling
keys removed, its `subject` untouched — and removes exactly those
entries from the pending store, keeping every other entry. -/
theorem claim_C5_fire_strip (now : Nat) (w : Waiting)
    (hwf : waitingWFb w = true) :
    ∃ w' pubs, scanFire now w = some (w', pubs) ∧
      pubs = (w.filter (fun e => elapsedB now e.2)).map (fun e => stripDelayed e.2) ∧
      (∀ e ∈ w, elapsedB now e.2 = true → aget w' e.1 = none) ∧
      (∀ e ∈ w, elapsedB now e.2 = false → aget w' e.1 = some e.2) ∧
      (∀ e ∈ w,
        aget (stripDelayed e.2) "topic" =
          some (PyVal.str ((topicStringOf e.2).drop topicCutoff)) ∧
        aget (stripDelayed e.2) "delay" = none ∧
        aget (stripDelayed e.2) "__notify_time__" = none ∧
        aget (stripDelayed e.2) "subject" = aget e.2 "subject") := by
  obtain ⟨w', pubs, hscan, hwf', hag, hpub⟩ := scanFire_spec now w hwf
  have hnd := waitingWFb_keysND w hwf
  have hparts : ∀ e ∈ w, optIsNum (aget e.2 "__notify_time__") = true ∧
      optIsStr (aget e.2 "topic") = true := by
    intro e he
    have h := entryWFb_parts e.1 e.2 (waitingWFb_mem w hwf e he)
    exact ⟨h.2.1, h.2.2.2.1⟩
  have heq := scanGo_eq now w w hparts
  unfold scanFire at hscan
  rw [hscan] at heq
  injection heq with heq1
  injection heq1 with heqw heqp
  refine ⟨w', pubs, hscan, heqp, ?_, ?_, ?_⟩
  · intro e he hel
    have hmem : aget w e.1 = some e.2 := mem_aget w e.1 e.2 hnd he
    rw [hag e.1, hmem]
    simp [hel]
  · intro e he hel
    have hmem : aget w e.1 = some e.2 := mem_aget w e.1 e.2 hnd he
    rw [hag e.1, hmem]
    simp [hel]
  · intro e he
    have h := entryWFb_parts e.1 e.2 (waitingWFb_mem w hwf e he)
    exact ⟨stripDelayed_topic e.2, stripDelayed_delay e.2 h.2.2.2.2,
      stripDelayed_notify_time e.2 h.2.2.2.2, stripDelayed_subject e.2⟩

/-- Witness for C5: a store with one elapsed and one still-pending
entry; the elapsed one is published stripped (topic
`delayed_notify.recording.should_start` becomes
`notify.recording.should_start`) and removed, the other kept. -/
theorem claim_C5_fire_strip_witness :
    ∃ w' pubs,
      scanFire 3000
        [("recording.should_start",
          [("subject", PyVal.str "recording.should_start"),
           ("topic", PyVal.str "delayed_notify.recording.should_start"),
           ("delay", PyVal.num 2000),
           ("__notify_time__", PyVal.num 2000)]),
         ("calib.started",
          [("subject", PyVal.str "calib.started"),
           ("topic", PyVal.str "delayed_notify.calib.started"),
           ("delay", PyVal.num 9000),
           ("__notify_time__", PyVal.num 9000)])] = some (w', pubs) ∧
      pubs =
        ([(("recording.should_start" : String),
          [("subject", PyVal.str "recording.should_start"),
           ("topic", PyVal.str "delayed_notify.recording.should_start"),
           ("delay", PyVal.num 2000),
           ("__notify_time__", PyVal.num 2000)])].map
          (fun e => stripDelayed e.2)) ∧
      aget w' "recording.should_start" = none := by
  obtain ⟨w', pubs, hscan, hpubs, hgone, _, _⟩ :=
    claim_C5_fire_strip 3000
      [("recording.should_start",
        [("subject", PyVal.str "recording.should_start"),
         ("topic", PyVal.str "delayed_notify.recording.should_start"),
         ("delay", PyVal.num 2000),
         ("__notify_time__", PyVal.num 2000)]),
       ("calib.started",
        [("subject", PyVal.str "calib.started"),
         ("topic", PyVal.str "delayed_notify.calib.started"),
         ("delay", PyVal.num 9000),
         ("__notify_time__", PyVal.num 9000)])] (by decide)
  refine ⟨w', pubs, hscan, ?_, ?_⟩
  · rw [hpubs]
    decide
  · exact hgone
      (("recording.should_start" : String),
        [("subject", PyVal.str "recording.should_start"),
         ("topic", PyVal.str "delayed_notify.recording.should_start"),
         ("delay", PyVal.num 2000),
         ("__notify_time__", PyVal.num 2000)])
      (by decide) (by decide)

/-- C3: two delayed notifications with the same subject where the second
reaches the proxy before the first's fire time elapses: the second
replaces the first in the subject-keyed pending store (the store then
holds the second, with its own fire time), the first never fires, and
over any continuation in which the replacement's fire time passes,
exactly one firing occurs — the replacement's. -/
theorem claim_C3_same_subject_replacement
    (s : String) (n1 n2 : Notification) (d1 d2 : Nat)
    (pre mid post : List IterIn) (it1 it2 itf : IterIn)
    (hm1 : it1.msg = some n1) (hm2 : it2.msg = some n2)
    (hs1 : aget n1 "subject" = some (PyVal.str s))
    (hs2 : aget n2 "subject" = some (PyVal.str s))
    (hwfn1 : msgWFb n1 = true) (hwfn2 : msgWFb n2 = true)
    (hd1 : aget n1 "delay" = some (PyVal.num d1))
    (hd2 : aget n2 "delay" = some (PyVal.num d2))
    (hpre1 : inpsWFb pre = true) (hpre2 : noSubjMsgB s pre = true)
    (hmid1 : inpsWFb mid = true) (hmid2 : noSubjMsgB s mid = true)
    (hpost1 : inpsWFb post = true) (hpost2 : noSubjMsgB s post = true)
    (hmidT : ∀ it ∈ mid, it.now ≤ it1.now + d1)
    (hfind : post.find? (fun x => decide (it2.now + d2 < x.now)) = some itf) :
    (∃ wmid outmid,
      delayRun (pre ++ it1 :: (mid ++ [it2])) [] = some (wmid, outmid) ∧
      aget wmid s =
        some (aset n2 "__notify_time__" (PyVal.num (it2.now + d2))) ∧
      pubsFor s outmid = []) ∧
    (∃ wfin out,
      delayRun ((pre ++ it1 :: (mid ++ [it2])) ++ post) [] = some (wfin, out) ∧
      aget wfin s = none ∧
      pubsFor s out =
        [(itf.now, stripDelayed (aset n2 "__notify_time__"
          (PyVal.num (it2.now + d2))))]) := by
  obtain ⟨wp, outp, hrunp, hwfp, hagp, houtp⟩ :=
    delayRun_absent s pre [] (by decide) hpre1 hpre2 rfl
  obtain ⟨w1, pubs1, hit1, hwf1, hag1, hpub1⟩ :=
    delayIteration_recv_spec it1 wp s n1 d1 hm1 hwfn1 hs1 hd1 hwfp
  have hT1 : aget (aset n1 "__notify_time__" (PyVal.num (it1.now + d1)))
      "__notify_time__" = some (PyVal.num (it1.now + d1)) := aget_aset_self n1 _ _
  have hfindmid : mid.find? (fun x => decide (it1.now + d1 < x.now)) = none := by
    rw [List.find?_eq_none]
    intro x hx
    simp only [decide_eq_true_eq]
    exact Nat.not_lt.2 (hmidT x hx)
  obtain ⟨wm, outm, hrunm, hwfm, hrestm⟩ :=
    delayRun_pending s _ (it1.now + d1) hT1 mid w1 hwf1 hmid1 hmid2 hag1
  rw [hfindmid] at hrestm
  obtain ⟨w2, pubs2, hit2, hwf2, hag2, hpub2⟩ :=
    delayIteration_recv_spec it2 wm s n2 d2 hm2 hwfn2 hs2 hd2 hwfm
  have hB2 : delayRun (mid ++ [it2]) w1 =
      some (w2, outm ++ pubs2.map (fun m => (it2.now, m))) := by
    rw [delayRun_append mid [it2] w1, hrunm]
    show (match delayRun [it2] wm with
      | some (wx, outx) => some (wx, outm ++ outx)
      | none => none) = some (w2, outm ++ pubs2.map (fun m => (it2.now, m)))
    rw [delayRun_singleton it2 wm w2 pubs2 hit2]
  have hB : delayRun (it1 :: (mid ++ [it2])) wp =
      some (w2, pubs1.map (fun m => (it1.now, m)) ++
        (outm ++ pubs2.map (fun m => (it2.now, m)))) := by
    simp [delayRun, hit1, hB2]
  have hpref : delayRun (pre ++ it1 :: (mid ++ [it2])) [] =
      some (w2, outp ++ (pubs1.map (fun m => (it1.now, m)) ++
        (outm ++ pubs2.map (fun m => (it2.now, m))))) := by
    rw [delayRun_append pre (it1 :: (mid ++ [it2])) [], hrunp]
    show (match delayRun (it1 :: (mid ++ [it2])) wp with
      | some (wx, outx) => some (wx, outp ++ outx)
      | none => none) =
      some (w2, outp ++ (pubs1.map (fun m => (it1.now, m)) ++
        (outm ++ pubs2.map (fun m => (it2.now, m)))))
    rw [hB]
  have hprefPubs : pubsFor s (outp ++ (pubs1.map (fun m => (it1.now, m)) ++
      (outm ++ pubs2.map (fun m => (it2.now, m))))) = [] := by
    rw [pubsFor_append, pubsFor_append, pubsFor_append, pubsFor_map_tag,
      pubsFor_map_tag, houtp, hpub1, hpub2, hrestm.2]
    rfl
  refine ⟨⟨w2, _, hpref, hag2, hprefPubs⟩, ?_⟩
  have hT2 : aget (aset n2 "__notify_time__" (PyVal.num (it2.now + d2)))
      "__notify_time__" = some (PyVal.num (it2.now + d2)) := aget_aset_self n2 _ _
  obtain ⟨wfin, outpost, hrunpost, hwfin, hrestf⟩ :=
    delayRun_pending s _ (it2.now + d2) hT2 post w2 hwf2 hpost1 hpost2 hag2
  rw [hfind] at hrestf
  refine ⟨wfin, outp ++ (pubs1.map (fun m => (it1.now, m)) ++
      (outm ++ pubs2.map (fun m => (it2.now, m)))) ++ outpost, ?_, hrestf.1, ?_⟩
  · rw [delayRun_append (pre ++ it1 :: (mid ++ [it2])) post [], hpref]
    show (match delayRun post w2 with
      | some (wx, outx) => some (wx, (outp ++ (pubs1.map (fun m => (it1.now, m)) ++
          (outm ++ pubs2.map (fun m => (it2.now, m))))) ++ outx)
      | none => none) =
      some (wfin, outp ++ (pubs1.map (fun m => (it1.now, m)) ++
        (outm ++ pubs2.map (fun m => (it2.now, m)))) ++ outpost)
    rw [hrunpost]
  · rw [pubsFor_append, hprefPubs, hrestf.2]
    rfl

/-- Consecutive pass times are at most one poll interval apart, starting
from `base`: `poller.poll(timeout=250)` returns within 250 ms, so with
negligible processing time each pass begins at most 250 ms after the
previous one. -/
def gapChainB : Nat → List IterIn → Bool
  | _, [] => true
  | b, it :: rest => decide (it.now ≤ b + pollTimeoutMs) && gapChainB it.now rest

theorem gapChain_first_le (T : Nat) :
    ∀ (l : List IterIn) (base : Nat), gapChainB base l = true → base ≤ T →
    ∀ itf, l.find? (fun x => decide (T < x.now)) = some itf →
      itf.now ≤ T + pollTimeoutMs := by
  intro l
  induction l with
  | nil =>
    intro base _ _ itf h
    simp at h
  | cons it rest ih =>
    intro base hchain hbase itf hfind
    unfold gapChainB at hchain
    rw [Bool.and_eq_true] at hchain
    have hstep : it.now ≤ base + pollTimeoutMs := of_decide_eq_true hchain.1
    by_cases hc : T < it.now
    · have hitf : itf = it := by
        rw [List.find?_cons] at hfind
        simp [hc] at hfind
        exact hfind.symm
      rw [hitf]
      exact le_trans hstep (Nat.add_le_add_right hbase pollTimeoutMs)
    · have hfind' : rest.find? (fun x => decide (T < x.now)) = some itf := by
        rw [List.find?_cons] at hfind
        simpa [hc] using hfind
      exact ih it.now hchain.2 (Nat.not_lt.1 hc) itf hfind'

/-- C4: a delayed notification with delay `d` accepted by the proxy at
pass time `t` (and never replaced by a same-subject follow-up) is
republished exactly once, at the first pass whose time strictly exceeds
`t + d`: never earlier than the requested delay and — since each
successive pass starts within one poll interval (250 ms) of the previous
one — no later than `t + d` plus one poll interval. -/
theorem claim_C4_delay_timing
    (s : String) (n : Notification) (d : Nat)
    (pre post : List IterIn) (it1 itf : IterIn)
    (hm1 : it1.msg = some n)
    (hs1 : aget n "subject" = some (PyVal.str s))
    (hwfn : msgWFb n = true)
    (hd : aget n "delay" = some (PyVal.num d))
    (hpre1 : inpsWFb pre = true) (hpre2 : noSubjMsgB s pre = true)
    (hpost1 : inpsWFb post = true) (hpost2 : noSubjMsgB s post = true)
    (hchain : gapChainB it1.now post = true)
    (hfind : post.find? (fun x => decide (it1.now + d < x.now)) = some itf) :
    ∃ wfin out, delayRun (pre ++ it1 :: post) [] = some (wfin, out) ∧
      pubsFor s out =
        [(itf.now, stripDelayed (aset n "__notify_time__"
          (PyVal.num (it1.now + d))))] ∧
      it1.now + d < itf.now ∧
      itf.now ≤ it1.now + d + pollTimeoutMs := by
  obtain ⟨wp, outp, hrunp, hwfp, hagp, houtp⟩ :=
    delayRun_absent s pre [] (by decide) hpre1 hpre2 rfl
  obtain ⟨w1, pubs1, hit1, hwf1, hag1, hpub1⟩ :=
    delayIteration_recv_spec it1 wp s n d hm1 hwfn hs1 hd hwfp
  have hT1 : aget (aset n "__notify_time__" (PyVal.num (it1.now + d)))
      "__notify_time__" = some (PyVal.num (it1.now + d)) := aget_aset_self n _ _
  obtain ⟨wfin, outpost, hrunpost, hwfin, hrestf⟩ :=
    delayRun_pending s _ (it1.now + d) hT1 post w1 hwf1 hpost1 hpost2 hag1
  rw [hfind] at hrestf
  have hlow : it1.now + d < itf.now := by
    have h1 := List.find?_some hfind
    exact of_decide_eq_true h1
  have hhigh : itf.now ≤ it1.now + d + pollTimeoutMs :=
    gapChain_first_le (it1.now + d) post it1.now hchain
      (Nat.le_add_right it1.now d) itf hfind
  have hrun1 : delayRun (it1 :: post) wp =
      some (wfin, pubs1.map (fun m => (it1.now, m)) ++ outpost) := by
    simp [delayRun, hit1, hrunpost]
  refine ⟨wfin, outp ++ (pubs1.map (fun m => (it1.now, m)) ++ outpost), ?_, ?_,
    hlow, hhigh⟩
  · rw [delayRun_append pre (it1 :: post) [], hrunp]
    show (match delayRun (it1 :: post) wp with
      | some (wx, outx) => some (wx, outp ++ outx)
      | none => none) =
      some (wfin, outp ++ (pubs1.map (fun m => (it1.now, m)) ++ outpost))
    rw [hrun1]
  · rw [pubsFor_append, pubsFor_append, pubsFor_map_tag, houtp, hpub1, hrestf.2]
    rfl

/-- The spec's replacement scenario, first message: subject `x`,
2 s delay, submitted at t = 0 ms. -/
def c3n1 : Notification :=
  [("subject", PyVal.str "x"), ("delay", PyVal.num 2000),
   ("topic", PyVal.str "delayed_notify.x")]

/-- Second message: same subject, 5 s delay, submitted at t = 1000 ms. -/
def c3n2 : Notification :=
  [("subject", PyVal.str "x"), ("delay", PyVal.num 5000),
   ("topic", PyVal.str "delayed_notify.x")]

/-- Witness for C3 on the spec's own scenario: delays 2 s then (at
t = 1 s) 5 s for subject `x`; the single firing happens at the pass at
t = 6250 ms (≈ 6 s), not at ≈ 3 s. -/
theorem claim_C3_same_subject_replacement_witness :
    (∃ wmid outmid,
      delayRun ([] ++ (⟨0, some c3n1⟩ : IterIn) ::
        ([] ++ [(⟨1000, some c3n2⟩ : IterIn)])) [] = some (wmid, outmid) ∧
      aget wmid "x" =
        some (aset c3n2 "__notify_time__" (PyVal.num (1000 + 5000))) ∧
      pubsFor "x" outmid = []) ∧
    (∃ wfin out,
      delayRun (([] ++ (⟨0, some c3n1⟩ : IterIn) ::
        ([] ++ [(⟨1000, some c3n2⟩ : IterIn)])) ++
        [(⟨1250, none⟩ : IterIn), (⟨6250, none⟩ : IterIn)]) [] =
        some (wfin, out) ∧
      aget wfin "x" = none ∧
      pubsFor "x" out =
        [(6250, stripDelayed (aset c3n2 "__notify_time__"
          (PyVal.num (1000 + 5000))))]) := by
  exact claim_C3_same_subject_replacement "x" c3n1 c3n2 2000 5000 [] []
    [⟨1250, none⟩, ⟨6250, none⟩] ⟨0, some c3n1⟩ ⟨1000, some c3n2⟩ ⟨6250, none⟩
    rfl rfl (by decide) (by decide) (by decide) (by decide) (by decide)
    (by decide) rfl rfl rfl rfl (by decide) (by decide) (by simp) (by decide)

/-- A delayed notification with a 400 ms delay, submitted at t = 0. -/
def c4n : Notification :=
  [("subject", PyVal.str "x"), ("delay", PyVal.num 400),
   ("topic", PyVal.str "delayed_notify.x")]

/-- Witness for C4: with passes at 250 ms and 500 ms (each within one
poll interval of the previous pass), the 400 ms-delayed notification
fires exactly once, at t = 500 — after the requested delay and within
one poll interval of it. -/
theorem claim_C4_delay_timing_witness :
    ∃ wfin out,
      delayRun ([] ++ (⟨0, some c4n⟩ : IterIn) ::
        [(⟨250, none⟩ : IterIn), (⟨500, none⟩ : IterIn)]) [] =
        some (wfin, out) ∧
      pubsFor "x" out =
        [(500, stripDelayed (aset c4n "__notify_time__"
          (PyVal.num (0 + 400))))] ∧
      0 + 400 < 500 ∧
      500 ≤ 0 + 400 + pollTimeoutMs := by
  exact claim_C4_delay_timing "x" c4n 400 [] [⟨250, none⟩, ⟨500, none⟩]
    ⟨0, some c4n⟩ ⟨500, none⟩ rfl (by decide) (by decide) (by decide)
    rfl rfl (by decide) (by decide) (by decide) (by decide)
